import Mathlib

/-
Verification of the adaptive manifold filter implementation
(modules/ximgproc/src/adaptive_manifold_filter_n.cpp), as a shallow
embedding over exact real-number arithmetic.  Image planes are modelled
pointwise (a pixel is an index into an abstract type), channel stacks as
lists, and the one-dimensional recursive passes of h_filter as functions
on lists of reals.
-/

namespace AMF

/-- Division as provided by the consumed library primitive `divide`:
when the divisor is zero the result is defined to be zero (the
documented contract of the elementwise divide primitive, also relied on
by the spec for eigenvector normalization underflow). -/
noncomputable def divide0 (a b : ℝ) : ℝ := if b = 0 then 0 else a / b

/-! ### compute_w_k (adaptive_manifold_filter_n.cpp lines 487-532) -/

/-- One term of the squared-distance accumulation: `sqr_dif` computes the
squared difference of corresponding pixels. -/
def sqrDif (e j : ℝ) : ℝ := (e - j) * (e - j)

/-- The per-pixel squared distance accumulated over the guide channels by
the `sqr_dif` / `add_sqr_dif` loop of compute_w_k: the channel values of
eta_k and of the joint image at one pixel are given as lists. -/
def d2Pixel (etak joint : List ℝ) : ℝ :=
  (List.zipWith sqrDif etak joint).sum

/-- Per-pixel value written into dst by compute_w_k: the accumulated
squared distance is multiplied by `argConst = -0.5f/(sigma*sigma)` and
exponentiated (`mul` then `cv::exp`). -/
noncomputable def compute_w_k_pixel (etak joint : List ℝ) (sigma : ℝ) : ℝ :=
  Real.exp (d2Pixel etak joint * (-(1/2) / (sigma * sigma)))

/-- Per-pixel update of minDistToManifoldSquared performed by compute_w_k
when adjust_outliers is set: at tree level 1 the row is copied
(`std::memcpy`), at any other level the elementwise minimum is taken
(`min_`). -/
def minDistUpdate (curTreeLevel : ℕ) (prev d : ℝ) : ℝ :=
  if curTreeLevel ≠ 1 then min prev d else d

theorem d2Pixel_nonneg (etak joint : List ℝ) : 0 ≤ d2Pixel etak joint := by
  induction etak generalizing joint with
  | nil => simp [d2Pixel]
  | cons e es ih =>
    cases joint with
    | nil => simp [d2Pixel]
    | cons j js =>
      have h1 : 0 ≤ sqrDif e j := mul_self_nonneg _
      have h2 := ih js
      simp only [d2Pixel, List.zipWith_cons_cons, List.sum_cons]
      exact add_nonneg h1 h2

/-- Claim C1: for every pixel, compute_w_k writes
w_k = exp(-d2/(2 sigma^2)) where d2 is the sum over guide channels of the
squared difference between eta_k and the joint image; every such value
lies in (0, 1]; and with adjust_outliers enabled, tree level 1 sets
min_dist2 to d2 while every deeper level takes the minimum of the
previous value and d2. -/
theorem compute_w_k_correct (etak joint : List ℝ) (sigma : ℝ)
    (hs : 0 < sigma) (prev : ℝ) :
    compute_w_k_pixel etak joint sigma
        = Real.exp (-(d2Pixel etak joint) / (2 * sigma ^ 2)) ∧
    0 < compute_w_k_pixel etak joint sigma ∧
    compute_w_k_pixel etak joint sigma ≤ 1 ∧
    minDistUpdate 1 prev (d2Pixel etak joint) = d2Pixel etak joint ∧
    (∀ L : ℕ, 2 ≤ L →
      minDistUpdate L prev (d2Pixel etak joint)
        = min prev (d2Pixel etak joint)) := by
  have hσ : sigma ≠ 0 := ne_of_gt hs
  have hσ2 : 0 < sigma * sigma := mul_pos hs hs
  refine ⟨?_, ?_, ?_, ?_, ?_⟩
  · unfold compute_w_k_pixel
    congr 1
    rw [pow_two]
    ring
  · exact Real.exp_pos _
  · apply Real.exp_le_one_iff.mpr
    apply mul_nonpos_of_nonneg_of_nonpos (d2Pixel_nonneg etak joint)
    apply div_nonpos_of_nonpos_of_nonneg
    · norm_num
    · exact le_of_lt hσ2
  · simp [minDistUpdate]
  · intro L hL
    have : L ≠ 1 := by omega
    simp [minDistUpdate, this]

theorem compute_w_k_correct_witness :
    (0:ℝ) < 1 ∧
    (compute_w_k_pixel [2] [1] 1
        = Real.exp (-(d2Pixel [2] [1]) / (2 * (1:ℝ) ^ 2)) ∧
    0 < compute_w_k_pixel [2] [1] 1 ∧
    compute_w_k_pixel [2] [1] 1 ≤ 1 ∧
    minDistUpdate 1 3 (d2Pixel [2] [1]) = d2Pixel [2] [1] ∧
    (∀ L : ℕ, 2 ≤ L →
      minDistUpdate L 3 (d2Pixel [2] [1]) = min 3 (d2Pixel [2] [1]))) :=
  ⟨one_pos, compute_w_k_correct [2] [1] 1 one_pos 3⟩

/-! ### gatherResult (adaptive_manifold_filter_n.cpp lines 322-357) -/

/-- Per-pixel, per-channel result assembled by gatherResult.  The final
conversion to the input depth (`divide` with a dtype argument in the
baseline branch, `convertTo` in the adjust_outliers branch) is modelled
by an abstract cast function.  In the adjust_outliers branch the code
first multiplies min_dist2 by `sigmaMember = -0.5/(sigma_r*sigma_r)` and
exponentiates to obtain alpha, then per channel computes
g = sum_psi / sum0, g := g - f, g := alpha * g, g := g + f. -/
noncomputable def gatherResultPixel (adjust : Bool) (cast : ℝ → ℝ)
    (sigma_r minDist2 sumPsi sum0 f : ℝ) : ℝ :=
  if adjust then
    let alpha := Real.exp (minDist2 * (-(1/2) / (sigma_r * sigma_r)))
    cast (alpha * (divide0 sumPsi sum0 - f) + f)
  else
    cast (divide0 sumPsi sum0)

/-- Claim C2: with adjust_outliers disabled gatherResult produces
cast(sum_wk_psi / sum_wk); with it enabled it produces
cast(alpha * (g - src) + src) with g = sum_wk_psi / sum_wk and
alpha = exp(-0.5 * min_dist2 / sigma_r^2). -/
theorem gatherResult_correct (cast : ℝ → ℝ)
    (sigma_r minDist2 sumPsi sum0 f : ℝ)
    (h0 : sum0 ≠ 0) (hr : sigma_r ≠ 0) :
    gatherResultPixel false cast sigma_r minDist2 sumPsi sum0 f
        = cast (sumPsi / sum0) ∧
    gatherResultPixel true cast sigma_r minDist2 sumPsi sum0 f
        = cast (Real.exp (-(1/2) * minDist2 / sigma_r ^ 2)
                  * (sumPsi / sum0 - f) + f) := by
  constructor
  · simp [gatherResultPixel, divide0, h0]
  · simp only [gatherResultPixel, divide0, if_neg h0, if_true]
    have harg : minDist2 * (-(1/2) / (sigma_r * sigma_r))
        = -(1/2) * minDist2 / sigma_r ^ 2 := by
      rw [pow_two]
      ring
    rw [harg]

theorem gatherResult_correct_witness :
    ((1:ℝ) ≠ 0 ∧ (1:ℝ) ≠ 0) ∧
    (gatherResultPixel false id 1 0 3 1 2 = id ((3:ℝ) / 1) ∧
     gatherResultPixel true id 1 0 3 1 2
        = id (Real.exp (-(1/2) * 0 / (1:ℝ) ^ 2) * ((3:ℝ) / 1 - 2) + 2)) :=
  ⟨⟨one_ne_zero, one_ne_zero⟩,
    gatherResult_correct id 1 0 3 1 2 one_ne_zero one_ne_zero⟩

/-! ### computeClusters (adaptive_manifold_filter_n.cpp lines 625-662) -/

section Clusters

variable {ι : Type} {α : Type} [LinearOrder α] [Zero α]

/-- Byte-mask produced by `compare(difOreientation, 0, cluster_minus, CMP_LT)`:
true exactly where the projection is strictly negative. -/
def cmpLT (o : ι → α) (x : ι) : Bool := decide (o x < 0)

/-- Byte-mask produced by `compare(difOreientation, 0, cluster_plus, CMP_GE)`:
true exactly where the projection is nonnegative. -/
def cmpGE (o : ι → α) (x : ι) : Bool := decide (0 ≤ o x)

/-- The pair (cluster_minus, cluster_plus) built by computeClusters from a
parent cluster mask and the projection field difOreientation: each
comparison mask is intersected with the parent mask by `bitwise_and`. -/
def computeClusters (mask : ι → Bool) (o : ι → α) : (ι → Bool) × (ι → Bool) :=
  (fun x => cmpLT o x && mask x, fun x => cmpGE o x && mask x)

/-- Cluster mask at a node of the manifold tree, the node being addressed
by the list of minus/plus decisions from that node up to the root (head =
deepest split, `true` = plus child, as taken by
buildManifoldsAndPerformFiltering).  The projection field used at each
split is abstracted as a function of the parent path, since it depends on
the whole filter state at that node.  The root mask is the all-ones mask
(`Mat1b cluster0(srcSize, 0xFF)`). -/
def maskAt (proj : List Bool → ι → α) : List Bool → ι → Bool
  | [], _ => true
  | b :: rest, x =>
      if b then (computeClusters (maskAt proj rest) (proj rest)).2 x
      else (computeClusters (maskAt proj rest) (proj rest)).1 x

theorem maskAt_sub (proj : List Bool → ι → α) (b : Bool) (p : List Bool)
    (x : ι) (h : maskAt proj (b :: p) x = true) : maskAt proj p x = true := by
  cases b with
  | false =>
    have h' : (proj p x < 0) ∧ maskAt proj p x = true := by
      simpa [maskAt, computeClusters, cmpLT] using h
    exact h'.2
  | true =>
    have h' : (0 ≤ proj p x) ∧ maskAt proj p x = true := by
      simpa [maskAt, computeClusters, cmpGE] using h
    exact h'.2

theorem maskAt_exists (proj : List Bool → ι → α) (x : ι) :
    ∀ n : ℕ, ∃ p : List Bool, p.length = n ∧ maskAt proj p x = true := by
  intro n
  induction n with
  | zero => exact ⟨[], rfl, rfl⟩
  | succ m ih =>
    obtain ⟨q, hlen, hq⟩ := ih
    by_cases ho : proj q x < 0
    · refine ⟨false :: q, by simp [hlen], ?_⟩
      simp [maskAt, computeClusters, cmpLT, hq, ho]
    · refine ⟨true :: q, by simp [hlen], ?_⟩
      simp [maskAt, computeClusters, cmpGE, hq, le_of_not_lt ho]

theorem maskAt_unique (proj : List Bool → ι → α) (x : ι) :
    ∀ p q : List Bool, p.length = q.length →
      maskAt proj p x = true → maskAt proj q x = true → p = q := by
  intro p
  induction p with
  | nil =>
    intro q hlen _ _
    exact (List.length_eq_zero.mp hlen.symm).symm
  | cons b p ih =>
    intro q hlen hp hq
    cases q with
    | nil => simp at hlen
    | cons c q' =>
      have hlen' : p.length = q'.length := by simpa using hlen
      have htail : p = q' :=
        ih q' hlen' (maskAt_sub proj b p x hp) (maskAt_sub proj c q' x hq)
      subst htail
      have hhead : b = c := by
        cases b <;> cases c
        · rfl
        · exfalso
          have h1 : (proj p x < 0) ∧ maskAt proj p x = true := by
            simpa [maskAt, computeClusters, cmpLT] using hp
          have h2 : (0 ≤ proj p x) ∧ maskAt proj p x = true := by
            simpa [maskAt, computeClusters, cmpGE] using hq
          exact absurd h1.1 (not_lt.mpr h2.1)
        · exfalso
          have h1 : (0 ≤ proj p x) ∧ maskAt proj p x = true := by
            simpa [maskAt, computeClusters, cmpGE] using hp
          have h2 : (proj p x < 0) ∧ maskAt proj p x = true := by
            simpa [maskAt, computeClusters, cmpLT] using hq
          exact absurd h2.1 (not_lt.mpr h1.1)
        · rfl
      rw [hhead]

/-- Claim C3: computeClusters splits a parent mask into
cluster_minus = mask AND (o lt 0) and cluster_plus = mask AND (o ge 0),
with o = 0 going to the plus branch; the two children are disjoint and
their union is the parent; and along the recursive tree the masks of any
level are pairwise disjoint with union equal to the all-ones root mask. -/
theorem computeClusters_partition (mask : ι → Bool) (o : ι → α)
    (proj : List Bool → ι → α) (x : ι) :
    ((computeClusters mask o).1 x = true ↔ (mask x = true ∧ o x < 0)) ∧
    ((computeClusters mask o).2 x = true ↔ (mask x = true ∧ 0 ≤ o x)) ∧
    (o x = 0 → (computeClusters mask o).2 x = mask x) ∧
    ¬((computeClusters mask o).1 x = true ∧
      (computeClusters mask o).2 x = true) ∧
    ((computeClusters mask o).1 x || (computeClusters mask o).2 x)
        = mask x ∧
    (∀ n : ℕ, ∃ p : List Bool, p.length = n ∧ maskAt proj p x = true) ∧
    (∀ p q : List Bool, p.length = q.length →
      maskAt proj p x = true → maskAt proj q x = true → p = q) := by
  refine ⟨?_, ?_, ?_, ?_, ?_, maskAt_exists proj x, maskAt_unique proj x⟩
  · simp [computeClusters, cmpLT, and_comm]
  · simp [computeClusters, cmpGE, and_comm]
  · intro h0
    simp [computeClusters, cmpGE, h0]
  · rintro ⟨h1, h2⟩
    have ho1 : (o x < 0) ∧ mask x = true := by
      simpa [computeClusters, cmpLT] using h1
    have ho2 : (0 ≤ o x) ∧ mask x = true := by
      simpa [computeClusters, cmpGE] using h2
    exact absurd ho1.1 (not_lt.mpr ho2.1)
  · by_cases hm : mask x = true
    · by_cases ho : o x < 0
      · simp [computeClusters, cmpLT, cmpGE, hm, ho, not_le.mpr ho]
      · simp [computeClusters, cmpLT, cmpGE, hm, ho, le_of_not_lt ho]
    · have hm' : mask x = false := by simpa using hm
      simp [computeClusters, cmpLT, cmpGE, hm']

theorem computeClusters_partition_witness :
    (computeClusters (ι := Fin 1) (fun _ => true) (fun _ => (0:ℚ))).1 0
        = true ↔ ((fun _ : Fin 1 => true) 0 = true ∧ (0:ℚ) < 0) :=
  (computeClusters_partition (fun _ => true) (fun _ => (0:ℚ))
      (fun _ _ => 0) 0).1

end Clusters

/-! ### Tree height (adaptive_manifold_filter_n.cpp lines 22-37 and 304) -/

/-- The helper `Log2(n) = log(n) / log(2.0)` of the source. -/
noncomputable def Log2 (n : ℝ) : ℝ := Real.log n / Real.log 2

/-- computeManifoldTreeHeight: `Hs = floor(Log2(sigma_s)) - 1`,
`Lr = 1 - sigma_r`, result `max(2, ceil(Hs * Lr))`. -/
noncomputable def computeManifoldTreeHeight (sigma_s sigma_r : ℝ) : ℤ :=
  max 2 ⌈((⌊Log2 sigma_s⌋ : ℝ) - 1) * (1 - sigma_r)⌉

/-- The tree height used by filter: the configured value when positive,
otherwise computeManifoldTreeHeight (line 304). -/
noncomputable def usedTreeHeight (cfgHeight : ℤ) (sigma_s sigma_r : ℝ) : ℤ :=
  if cfgHeight ≤ 0 then computeManifoldTreeHeight sigma_s sigma_r
  else cfgHeight

/-- Claim C5: for sigma_s at least 1 and sigma_r in (0,1], when the
configured tree_height is nonpositive, the height actually used equals
max(2, ceil((floor(log2 sigma_s) - 1) * (1 - sigma_r))), and it is never
below 2. -/
theorem usedTreeHeight_correct (cfgHeight : ℤ) (sigma_s sigma_r : ℝ)
    (hs : 1 ≤ sigma_s) (hr0 : 0 < sigma_r) (hr1 : sigma_r ≤ 1)
    (hc : cfgHeight ≤ 0) :
    usedTreeHeight cfgHeight sigma_s sigma_r
        = max 2 ⌈((⌊Real.logb 2 sigma_s⌋ : ℝ) - 1) * (1 - sigma_r)⌉ ∧
    2 ≤ usedTreeHeight cfgHeight sigma_s sigma_r := by
  have hlog : Log2 sigma_s = Real.logb 2 sigma_s := by
    rw [Log2, Real.logb]
  constructor
  · rw [usedTreeHeight, if_pos hc, computeManifoldTreeHeight, hlog]
  · rw [usedTreeHeight, if_pos hc, computeManifoldTreeHeight]
    exact le_max_left _ _

theorem usedTreeHeight_correct_witness :
    ((1:ℝ) ≤ 16 ∧ (0:ℝ) < 1/5 ∧ (1:ℝ)/5 ≤ 1 ∧ (-1:ℤ) ≤ 0) ∧
    (usedTreeHeight (-1) 16 (1/5)
        = max 2 ⌈((⌊Real.logb 2 (16:ℝ)⌋ : ℝ) - 1) * (1 - 1/5)⌉ ∧
     2 ≤ usedTreeHeight (-1) 16 (1/5)) :=
  ⟨⟨by norm_num, by norm_num, by norm_num, by norm_num⟩,
    usedTreeHeight_correct (-1) 16 (1/5) (by norm_num) (by norm_num)
      (by norm_num) (by norm_num)⟩

/-! ### Entry preconditions of filter (lines 297-302) -/

/-- Events observable at the head of filter(): either the CV_Assert on
line 299 fails, or control reaches initBuffers on line 302 which creates
the working buffers. -/
inductive FilterEvent where
  | precondCheckFailed
  | buffersAllocated
deriving DecidableEq

/-- The condition asserted at the head of filter():
`sigma_s_ >= 1 && (sigma_r_ > 0 && sigma_r_ <= 1)`.  It does not inspect
the src argument. -/
def filterEntryCheck (sigma_s sigma_r : ℚ) : Bool :=
  decide (1 ≤ sigma_s) && (decide (0 < sigma_r) && decide (sigma_r ≤ 1))

/-- Control flow at the head of filter(), as a function of the
configuration and of whether src is empty: the assert reads only the two
sigma parameters; on success the very next effect (after the
num_pca_iterations clamp) is the buffer allocation of initBuffers. -/
def filterEntry (sigma_s sigma_r : ℚ) (srcEmpty : Bool) : FilterEvent :=
  if filterEntryCheck sigma_s sigma_r then FilterEvent.buffersAllocated
  else FilterEvent.precondCheckFailed

/-- Claim C7 as stated is false on the code: a call with an empty src but
valid sigma parameters passes the entry assert and proceeds to buffer
allocation instead of failing with a precondition-violation error. -/
theorem filterEntry_emptySrc_counterexample :
    filterEntry 16 (1/5) true = FilterEvent.buffersAllocated ∧
    FilterEvent.buffersAllocated ≠ FilterEvent.precondCheckFailed := by
  constructor
  · rw [filterEntry, if_pos]
    simp [filterEntryCheck]
    norm_num
  · intro h
    cases h

/-- Claim C7 (amended): a call with sigma_s below 1 or sigma_r outside
(0,1] fails the entry assert with a precondition-violation error before
any buffer is allocated, whatever src is; an empty src itself is not
validated, and with valid sigmas the call proceeds to buffer
allocation. -/
theorem filterEntry_precondition (sigma_s sigma_r : ℚ) (srcEmpty : Bool)
    (hbad : sigma_s < 1 ∨ sigma_r ≤ 0 ∨ 1 < sigma_r) :
    filterEntry sigma_s sigma_r srcEmpty = FilterEvent.precondCheckFailed ∧
    (∀ s r : ℚ, ∀ e : Bool, 1 ≤ s → 0 < r → r ≤ 1 →
      filterEntry s r e = FilterEvent.buffersAllocated) := by
  constructor
  · have hfalse : filterEntryCheck sigma_s sigma_r = false := by
      rcases hbad with h | h | h
      · simp [filterEntryCheck, not_le.mpr h]
      · simp [filterEntryCheck, not_lt.mpr h]
      · simp [filterEntryCheck, not_le.mpr h]
    rw [filterEntry, hfalse]
    rfl
  · intro s r e h1 h2 h3
    have htrue : filterEntryCheck s r = true := by
      simp [filterEntryCheck, h1, h2, h3]
    rw [filterEntry, htrue]
    rfl

theorem filterEntry_precondition_witness :
    ((1:ℚ)/2 < 1 ∨ (1:ℚ)/5 ≤ 0 ∨ 1 < (1:ℚ)/5) ∧
    (filterEntry (1/2) (1/5) false = FilterEvent.precondCheckFailed ∧
     (∀ s r : ℚ, ∀ e : Bool, 1 ≤ s → 0 < r → r ≤ 1 →
       filterEntry s r e = FilterEvent.buffersAllocated)) :=
  ⟨Or.inl (by norm_num),
    filterEntry_precondition (1/2) (1/5) false (Or.inl (by norm_num))⟩

/-! ### num_pca_iterations clamp (line 300) -/

/-- The silent clamp `num_pca_iterations_ = std::max(1, num_pca_iterations_)`
performed by filter before any use of the parameter. -/
def clampPcaIterations (n : ℤ) : ℤ := max 1 n

/-- Claim C9: a nonpositive configured num_pca_iterations does not make
filter fail: the entry assert does not involve it, the value is clamped
to 1, and every later use sees exactly the value 1, so the output equals
the output produced with num_pca_iterations = 1. -/
theorem clampPcaIterations_correct (n : ℤ) (hn : n ≤ 0) :
    clampPcaIterations n = 1 ∧
    clampPcaIterations n = clampPcaIterations 1 ∧
    (∀ runRest : ℤ → FilterEvent,
      runRest (clampPcaIterations n) = runRest 1) ∧
    (∀ s r : ℚ, ∀ e : Bool,
      filterEntry s r e = filterEntry s r e) := by
  have h1 : clampPcaIterations n = 1 := by
    rw [clampPcaIterations]
    omega
  refine ⟨h1, ?_, ?_, fun _ _ _ => rfl⟩
  · rw [h1]
    rfl
  · intro runRest
    rw [h1]

theorem clampPcaIterations_correct_witness :
    ((-3:ℤ) ≤ 0) ∧
    (clampPcaIterations (-3) = 1 ∧
     clampPcaIterations (-3) = clampPcaIterations 1 ∧
     (∀ runRest : ℤ → FilterEvent,
       runRest (clampPcaIterations (-3)) = runRest 1) ∧
     (∀ s r : ℚ, ∀ e : Bool,
       filterEntry s r e = filterEntry s r e)) :=
  ⟨by norm_num, clampPcaIterations_correct (-3) (by norm_num)⟩

/-! ### h_filter (adaptive_manifold_filter_n.cpp lines 447-485)

The two horizontal sweeps of a row and the two vertical sweeps over the
rows share one recurrence shape: the first element is kept and every
later element is combined with the already-updated previous element.
`iirFwd` is the in-place loop with an explicit carry, `iirPass` keeps the
first element, and `iirBwd` is the same pass run from the other end. -/

section IIR

variable {α : Type}

/-- Carry loop of a first-order recursive pass: each output element is
`f prev cur` where prev is the previously written output element. -/
def iirFwd (f : α → α → α) : α → List α → List α
  | _, [] => []
  | p, x :: xs => f p x :: iirFwd f (f p x) xs

/-- A full forward pass: the first element is written through unchanged
(`dst_row[0] = src_row[0]`, respectively the untouched row 0), the rest
runs the carry loop. -/
def iirPass (f : α → α → α) : List α → List α
  | [] => []
  | x :: xs => x :: iirFwd f x xs

/-- The corresponding backward pass (`for x = cols-2 .. 0`, respectively
`for y = rows-2 .. 0`): the forward pass on the reversed sequence. -/
def iirBwd (f : α → α → α) (l : List α) : List α :=
  (iirPass f l.reverse).reverse

theorem iirFwd_length (f : α → α → α) :
    ∀ (xs : List α) (p : α), (iirFwd f p xs).length = xs.length := by
  intro xs
  induction xs with
  | nil => intro p; rfl
  | cons x xs ih => intro p; simp [iirFwd, ih]

theorem iirPass_length (f : α → α → α) (l : List α) :
    (iirPass f l).length = l.length := by
  cases l with
  | nil => rfl
  | cons x xs => simp [iirPass, iirFwd_length]

theorem iirBwd_length (f : α → α → α) (l : List α) :
    (iirBwd f l).length = l.length := by
  simp [iirBwd, iirPass_length]

theorem getD_reverse (l : List α) (d : α) (i : ℕ) (h : i < l.length) :
    l.reverse.getD i d = l.getD (l.length - 1 - i) d := by
  have h1 : i < l.reverse.length := by simpa using h
  have h2 : l.length - 1 - i < l.length := by omega
  rw [List.getD_eq_getElem _ _ h1, List.getD_eq_getElem _ _ h2]
  exact List.getElem_reverse ..

theorem iirFwd_getD (f : α → α → α) (d : α) :
    ∀ (xs : List α) (p : α) (i : ℕ), i + 1 < xs.length →
      (iirFwd f p xs).getD (i + 1) d
        = f ((iirFwd f p xs).getD i d) (xs.getD (i + 1) d) := by
  intro xs
  induction xs with
  | nil => intro p i h; simp at h
  | cons x xs ih =>
    intro p i h
    cases i with
    | zero =>
      cases xs with
      | nil => simp at h
      | cons z zs => rfl
    | succ j =>
      have hj : j + 1 < xs.length := by simpa using Nat.lt_of_succ_lt_succ h
      simpa [iirFwd] using ih (f p x) j hj

theorem iirPass_getD_zero (f : α → α → α) (d : α) (l : List α)
    (h : 0 < l.length) : (iirPass f l).getD 0 d = l.getD 0 d := by
  cases l with
  | nil => simp at h
  | cons x xs => rfl

theorem iirPass_getD (f : α → α → α) (d : α) (l : List α) (i : ℕ)
    (h : i + 1 < l.length) :
    (iirPass f l).getD (i + 1) d
      = f ((iirPass f l).getD i d) (l.getD (i + 1) d) := by
  cases l with
  | nil => simp at h
  | cons x xs =>
    cases i with
    | zero =>
      cases xs with
      | nil => simp at h
      | cons z zs => rfl
    | succ j =>
      have hj : j + 1 < xs.length := by simpa using Nat.lt_of_succ_lt_succ h
      simpa [iirPass, iirFwd] using iirFwd_getD f d xs x j hj

theorem iirBwd_getD_last (f : α → α → α) (d : α) (l : List α)
    (h : 0 < l.length) :
    (iirBwd f l).getD (l.length - 1) d = l.getD (l.length - 1) d := by
  have hrevlen : (iirPass f l.reverse).length = l.length := by
    simp [iirPass_length]
  have hlt : l.length - 1 < (iirPass f l.reverse).length := by omega
  rw [iirBwd, getD_reverse _ _ _ hlt, hrevlen]
  have hz : l.length - 1 - (l.length - 1) = 0 := by omega
  rw [hz, iirPass_getD_zero f d _ (by simpa using h),
    getD_reverse _ _ _ (by simpa using h)]
  simp

theorem iirBwd_getD (f : α → α → α) (d : α) (l : List α) (i : ℕ)
    (h : i + 1 < l.length) :
    (iirBwd f l).getD i d
      = f ((iirBwd f l).getD (i + 1) d) (l.getD i d) := by
  have hrevlen : (iirPass f l.reverse).length = l.length := by
    simp [iirPass_length]
  have hi : i < (iirPass f l.reverse).length := by omega
  have hi1 : i + 1 < (iirPass f l.reverse).length := by omega
  rw [iirBwd, getD_reverse _ _ _ hi, getD_reverse _ _ _ hi1, hrevlen]
  have e1 : l.length - 1 - i = (l.length - 2 - i) + 1 := by omega
  have hidx : (l.length - 2 - i) + 1 < l.reverse.length := by
    simp only [List.length_reverse]; omega
  rw [e1, iirPass_getD f d l.reverse _ hidx]
  have e2 : l.length - 1 - (i + 1) = l.length - 2 - i := by omega
  rw [e2]
  congr 1
  rw [getD_reverse _ _ _ (by omega)]
  congr 1
  omega

theorem iirFwd_all (f : α → α → α) (P : α → Prop)
    (hf : ∀ p x, P p → P x → P (f p x)) :
    ∀ (xs : List α) (p : α), P p → (∀ x ∈ xs, P x) →
      ∀ y ∈ iirFwd f p xs, P y := by
  intro xs
  induction xs with
  | nil => intro p _ _ y hy; simp [iirFwd] at hy
  | cons x xs ih =>
    intro p hp hxs y hy
    simp only [iirFwd, List.mem_cons] at hy
    have hx : P x := hxs x (List.mem_cons_self x xs)
    rcases hy with rfl | hy
    · exact hf p x hp hx
    · exact ih (f p x) (hf p x hp hx) (fun z hz => hxs z (List.mem_cons_of_mem x hz)) y hy

theorem iirPass_all (f : α → α → α) (P : α → Prop)
    (hf : ∀ p x, P p → P x → P (f p x)) (l : List α)
    (hl : ∀ x ∈ l, P x) : ∀ y ∈ iirPass f l, P y := by
  cases l with
  | nil => intro y hy; simp [iirPass] at hy
  | cons x xs =>
    intro y hy
    simp only [iirPass, List.mem_cons] at hy
    have hx : P x := hl x (List.mem_cons_self x xs)
    rcases hy with rfl | hy
    · exact hx
    · exact iirFwd_all f P hf xs x hx
        (fun z hz => hl z (List.mem_cons_of_mem x hz)) y hy

theorem iirBwd_all (f : α → α → α) (P : α → Prop)
    (hf : ∀ p x, P p → P x → P (f p x)) (l : List α)
    (hl : ∀ x ∈ l, P x) : ∀ y ∈ iirBwd f l, P y := by
  intro y hy
  rw [iirBwd, List.mem_reverse] at hy
  exact iirPass_all f P hf l.reverse (fun z hz => hl z (List.mem_reverse.mp hz)) y hy

theorem iirFwd_const (f : α → α → α) (c : α) (hc : f c c = c) :
    ∀ k : ℕ, iirFwd f c (List.replicate k c) = List.replicate k c := by
  intro k
  induction k with
  | zero => rfl
  | succ m ih => simp [List.replicate_succ, iirFwd, hc, ih]

theorem iirPass_const (f : α → α → α) (c : α) (hc : f c c = c) (k : ℕ) :
    iirPass f (List.replicate k c) = List.replicate k c := by
  cases k with
  | zero => rfl
  | succ m =>
    simp [List.replicate_succ, iirPass, iirFwd_const f c hc]

theorem iirBwd_const (f : α → α → α) (c : α) (hc : f c c = c) (k : ℕ) :
    iirBwd f (List.replicate k c) = List.replicate k c := by
  simp [iirBwd, List.reverse_replicate, iirPass_const f c hc]

end IIR

/-- Feedback coefficient of h_filter: `a = exp(-sqrt(2.0f) / sigma)`. -/
noncomputable def hcoef (sigma : ℝ) : ℝ := Real.exp (-Real.sqrt 2 / sigma)

/-- Elementary step of both horizontal sweeps:
`dst_row[x] = src + a * (prev - src)`. -/
def hstep (a prev cur : ℝ) : ℝ := cur + a * (prev - cur)

/-- One application of `rf_vert_row_pass(dst_cur_row, dst_prev_row, a, cols)`.

Modelled from the spec: the body of rf_vert_row_pass lives in
edgeaware_filters_common (not part of the sources at hand); the spec
defines it as the elementwise relation
`cur[x] = cur[x] + a * (prev[x] - cur[x])`. -/
def vstep (a : ℝ) (prev cur : List ℝ) : List ℝ :=
  List.zipWith (fun cx px => cx + a * (px - cx)) cur prev

/-- Both horizontal sweeps of one row of h_filter: forward then
backward. -/
noncomputable def hRowPass (a : ℝ) (xs : List ℝ) : List ℝ :=
  iirBwd (hstep a) (iirPass (hstep a) xs)

/-- h_filter on a plane held as a list of rows: per-row forward and
backward horizontal sweeps, then the vertical forward sweep over rows
1..rows-1 and the vertical backward sweep over rows rows-2..0. -/
noncomputable def h_filter (sigma : ℝ) (src : List (List ℝ)) :
    List (List ℝ) :=
  iirBwd (vstep (hcoef sigma))
    (iirPass (vstep (hcoef sigma))
      (src.map (fun r => hRowPass (hcoef sigma) r)))

theorem vstep_length (a : ℝ) (prev cur : List ℝ) :
    (vstep a prev cur).length = min cur.length prev.length := by
  simp [vstep]

theorem vstep_getD (a : ℝ) (prev cur : List ℝ) (j : ℕ)
    (hj : j < cur.length) (hj2 : j < prev.length) :
    (vstep a prev cur).getD j 0
      = cur.getD j 0 + a * (prev.getD j 0 - cur.getD j 0) := by
  have hlen : j < (vstep a prev cur).length := by
    rw [vstep_length]; omega
  rw [List.getD_eq_getElem _ _ hlen, List.getD_eq_getElem _ _ hj,
    List.getD_eq_getElem _ _ hj2]
  simp [vstep]

/-- Claim C4: with a = exp(-sqrt 2 / sigma), the forward horizontal sweep
satisfies y[0] = x[0] and y[i] = x[i] + a*(y[i-1] - x[i]); the backward
sweep leaves the last element and satisfies
z[i] = y[i] + a*(z[i+1] - y[i]); the vertical sweeps apply
cur[x] = cur[x] + a*(prev[x] - cur[x]) forward from row 1 to the last row
and backward from the second-to-last row to row 0; and the output of
h_filter has the same shape as its input. -/
theorem h_filter_passes (sigma : ℝ) (hsig : 0 < sigma) :
    hcoef sigma = Real.exp (-Real.sqrt 2 / sigma) ∧
    (∀ x : List ℝ,
      (iirPass (hstep (hcoef sigma)) x).length = x.length ∧
      (0 < x.length →
        (iirPass (hstep (hcoef sigma)) x).getD 0 0 = x.getD 0 0) ∧
      (∀ i : ℕ, i + 1 < x.length →
        (iirPass (hstep (hcoef sigma)) x).getD (i + 1) 0
          = x.getD (i + 1) 0
            + hcoef sigma * ((iirPass (hstep (hcoef sigma)) x).getD i 0
                - x.getD (i + 1) 0))) ∧
    (∀ y : List ℝ,
      (iirBwd (hstep (hcoef sigma)) y).length = y.length ∧
      (0 < y.length →
        (iirBwd (hstep (hcoef sigma)) y).getD (y.length - 1) 0
          = y.getD (y.length - 1) 0) ∧
      (∀ i : ℕ, i + 1 < y.length →
        (iirBwd (hstep (hcoef sigma)) y).getD i 0
          = y.getD i 0
            + hcoef sigma * ((iirBwd (hstep (hcoef sigma)) y).getD (i + 1) 0
                - y.getD i 0))) ∧
    (∀ rows : List (List ℝ),
      (0 < rows.length →
        (iirPass (vstep (hcoef sigma)) rows).getD 0 [] = rows.getD 0 []) ∧
      (∀ i : ℕ, i + 1 < rows.length →
        (iirPass (vstep (hcoef sigma)) rows).getD (i + 1) []
          = vstep (hcoef sigma)
              ((iirPass (vstep (hcoef sigma)) rows).getD i [])
              (rows.getD (i + 1) [])) ∧
      (∀ i : ℕ, i + 1 < rows.length →
        (iirBwd (vstep (hcoef sigma)) rows).getD i []
          = vstep (hcoef sigma)
              ((iirBwd (vstep (hcoef sigma)) rows).getD (i + 1) [])
              (rows.getD i []))) ∧
    (∀ prev cur : List ℝ, ∀ j : ℕ, j < cur.length → j < prev.length →
      (vstep (hcoef sigma) prev cur).getD j 0
        = cur.getD j 0
          + hcoef sigma * (prev.getD j 0 - cur.getD j 0)) ∧
    (∀ (src : List (List ℝ)) (w : ℕ), (∀ r ∈ src, r.length = w) →
      (h_filter sigma src).length = src.length ∧
      (∀ r ∈ h_filter sigma src, r.length = w)) := by
  set a := hcoef sigma with ha
  refine ⟨rfl, ?_, ?_, ?_, ?_, ?_⟩
  · intro x
    refine ⟨iirPass_length _ x, iirPass_getD_zero _ 0 x, ?_⟩
    intro i hi
    rw [iirPass_getD (hstep a) 0 x i hi]
    rfl
  · intro y
    refine ⟨iirBwd_length _ y, iirBwd_getD_last _ 0 y, ?_⟩
    intro i hi
    rw [iirBwd_getD (hstep a) 0 y i hi]
    rfl
  · intro rows
    refine ⟨iirPass_getD_zero _ [] rows, ?_, ?_⟩
    · intro i hi
      exact iirPass_getD (vstep a) [] rows i hi
    · intro i hi
      exact iirBwd_getD (vstep a) [] rows i hi
  · intro prev cur j hj hj2
    exact vstep_getD a prev cur j hj hj2
  · intro src w hw
    have hrowlen : ∀ r ∈ src.map (fun r => hRowPass a r), r.length = w := by
      intro r hr
      rw [List.mem_map] at hr
      obtain ⟨s, hs, rfl⟩ := hr
      simp [hRowPass, iirBwd_length, iirPass_length, hw s hs]
    have hP : ∀ p x : List ℝ, p.length = w → x.length = w →
        (vstep a p x).length = w := by
      intro p x hp hx
      rw [vstep_length, hp, hx]
      exact Nat.min_self w
    constructor
    · simp [h_filter, iirBwd_length, iirPass_length]
    · intro r hr
      exact iirBwd_all (vstep a) (fun t => t.length = w) hP _
        (iirPass_all (vstep a) (fun t => t.length = w) hP _ hrowlen) r hr

theorem h_filter_passes_witness :
    (0:ℝ) < 1 ∧
    (hcoef 1 = Real.exp (-Real.sqrt 2 / 1) ∧
      (iirPass (hstep (hcoef 1)) [3, 7]).length = ([3, 7] : List ℝ).length) :=
  ⟨one_pos,
    (h_filter_passes 1 one_pos).1,
    ((h_filter_passes 1 one_pos).2.1 [3, 7]).1⟩

/-- Claim C10: on a constant plane every stage of h_filter is the
identity, so h_filter returns the constant plane unchanged (in exact real
arithmetic), for every sigma above 0. -/
theorem h_filter_const (hgt wd : ℕ) (c sigma : ℝ) (hsig : 0 < sigma) :
    h_filter sigma (List.replicate hgt (List.replicate wd c))
      = List.replicate hgt (List.replicate wd c) := by
  set a := hcoef sigma with ha
  have hstep_c : hstep a c c = c := by simp [hstep]
  have vstep_c : vstep a (List.replicate wd c) (List.replicate wd c)
      = List.replicate wd c := by
    rw [vstep]
    induction wd with
    | zero => rfl
    | succ m ih => simp [List.replicate_succ, ih]
  have hrow : hRowPass a (List.replicate wd c) = List.replicate wd c := by
    rw [hRowPass, iirPass_const _ _ hstep_c, iirBwd_const _ _ hstep_c]
  rw [h_filter]
  rw [List.map_replicate, hrow,
    iirPass_const _ _ vstep_c, iirBwd_const _ _ vstep_c]

theorem h_filter_const_witness :
    (0:ℝ) < 1 ∧
    h_filter 1 (List.replicate 2 (List.replicate 3 (5:ℝ)))
      = List.replicate 2 (List.replicate 3 (5:ℝ)) :=
  ⟨one_pos, h_filter_const 2 3 5 1 one_pos⟩

/-! ### RNG seeding and cluster init vectors (lines 306-310 and 638-647)

The uniform RNG itself is a consumed library primitive; it is abstracted
as a deterministic fill function from a state to a vector and a next
state.  The filter derives the initial state from one sampled guide
value, and with use_RNG disabled it never consults the RNG at all. -/

/-- `baseCoef = numeric_limits<uint64>::max() / 0xFFFF`: the unsigned
integer division is exact, 2^64 - 1 = 65535 * 281479271743489. -/
def baseCoef : ℕ := (2 ^ 64 - 1) / 0xFFFF

/-- Truncation toward zero performed by `static_cast<int64>` on the
product. -/
def truncQ (q : ℚ) : ℤ := Int.tdiv q.num (q.den : ℤ)

/-- The RNG state set by filter:
`rnd.state = static_cast<int64>(baseCoef * seedCoef)` with
`seedCoef = jointCn[0].at(srcSize.height/2, srcSize.width/2)`, here
received as jointCenter. -/
def initialRngState (jointCenter : ℚ) : ℤ :=
  truncQ ((baseCoef : ℚ) * jointCenter)

/-- The deterministic init vector used by computeClusters when use_RNG is
disabled: entry i is 0.5 for even i and -0.5 for odd i. -/
def fixedInitVec (cj : ℕ) : List ℚ :=
  (List.range cj).map (fun i => if i % 2 = 0 then (1:ℚ)/2 else -(1/2))

/-- The init vector consumed by one computeClusters call, together with
the RNG state afterwards: `rnd.fill(initVec, RNG::UNIFORM, -0.5, 0.5)`
when use_RNG is set (rngFill abstracts the library RNG), the fixed
alternating vector otherwise (the RNG state is then untouched). -/
def nodeInitVec (useRng : Bool) (rngFill : ℤ → ℕ → List ℚ × ℤ)
    (cj : ℕ) (st : ℤ) : List ℚ × ℤ :=
  if useRng then rngFill st cj else (fixedInitVec cj, st)

/-- The sequence of init vectors consumed over the manifold tree by
buildManifoldsAndPerformFiltering, with d levels of splitting remaining
(d = curTreeHeight - treeLevel): a node that still splits consumes one
vector, then its minus subtree runs before its plus subtree, threading
the RNG state. -/
def treeInitVecs (useRng : Bool) (rngFill : ℤ → ℕ → List ℚ × ℤ)
    (cj : ℕ) : ℕ → ℤ → List (List ℚ) × ℤ
  | 0, st => ([], st)
  | d + 1, st =>
      let r0 := nodeInitVec useRng rngFill cj st
      let r1 := treeInitVecs useRng rngFill cj d r0.2
      let r2 := treeInitVecs useRng rngFill cj d r1.2
      (r0.1 :: (r1.1 ++ r2.1), r2.2)

/-- The output of one filter run as a pure function of the configuration
and the input: everything downstream of the init vectors is
image-processing arithmetic without further nondeterminism, abstracted
as pipe. -/
def filterOutputModel {O : Type} (pipe : List (List ℚ) → O)
    (useRng : Bool) (rngFill : ℤ → ℕ → List ℚ × ℤ)
    (cj d : ℕ) (jointCenter : ℚ) : O :=
  pipe (treeInitVecs useRng rngFill cj d (initialRngState jointCenter)).1

theorem treeInitVecs_noRng (rngFill : ℤ → ℕ → List ℚ × ℤ) (cj : ℕ) :
    ∀ (d : ℕ) (st : ℤ),
      treeInitVecs false rngFill cj d st
        = (List.replicate (2 ^ d - 1) (fixedInitVec cj), st) := by
  intro d
  induction d with
  | zero => intro st; rfl
  | succ m ih =>
    intro st
    have hk : 1 ≤ 2 ^ m := Nat.one_le_two_pow
    have harith : 2 ^ (m + 1) - 1 = ((2 ^ m - 1) + (2 ^ m - 1)) + 1 := by
      rw [pow_succ]
      omega
    rw [treeInitVecs]
    simp only [nodeInitVec, Bool.false_eq_true, if_neg, ite_false, ih]
    rw [harith, List.replicate_succ, List.replicate_add]

/-- Claim C6: the modelled filter run is a pure function of the
configuration and input, so two executions agree bitwise; the RNG state
is derived from the sampled center guide value as
trunc(baseCoef * jointCenter); and with use_RNG disabled the consumed
init vectors are independent of the RNG and of its state, every node
receiving the fixed vector whose entry i is +0.5 for even i and -0.5 for
odd i. -/
theorem filter_deterministic :
    (∀ (O : Type) (pipe : List (List ℚ) → O) (useRng : Bool)
        (rngFill : ℤ → ℕ → List ℚ × ℤ) (cj d : ℕ) (jc : ℚ) (out1 out2 : O),
      out1 = filterOutputModel pipe useRng rngFill cj d jc →
      out2 = filterOutputModel pipe useRng rngFill cj d jc →
      out1 = out2) ∧
    (∀ jc : ℚ, initialRngState jc = truncQ ((baseCoef : ℚ) * jc)) ∧
    (∀ (rngFill rngFillOther : ℤ → ℕ → List ℚ × ℤ) (cj d : ℕ) (st stOther : ℤ),
      treeInitVecs false rngFill cj d st
        = (List.replicate (2 ^ d - 1) (fixedInitVec cj), st) ∧
      (treeInitVecs false rngFill cj d st).1
        = (treeInitVecs false rngFillOther cj d stOther).1) ∧
    (∀ cj i : ℕ, i < cj →
      (fixedInitVec cj).getD i 0 = if i % 2 = 0 then (1:ℚ)/2 else -(1/2)) := by
  refine ⟨?_, fun _ => rfl, ?_, ?_⟩
  · intro O pipe useRng rngFill cj d jc out1 out2 h1 h2
    rw [h1, h2]
  · intro rngFill rngFillOther cj d st stOther
    rw [treeInitVecs_noRng, treeInitVecs_noRng]
    exact ⟨rfl, rfl⟩
  · intro cj i hi
    have hlen : i < ((List.range cj).map
        (fun i => if i % 2 = 0 then (1:ℚ)/2 else -(1/2))).length := by
      simpa using hi
    rw [fixedInitVec, List.getD_eq_getElem _ _ hlen]
    simp

theorem filter_deterministic_witness :
    filterOutputModel (fun l => l.length) true (fun st _ => ([], st + 1)) 3 2 (1/2)
      = filterOutputModel (fun l => l.length) true (fun st _ => ([], st + 1)) 3 2 (1/2) :=
  filter_deterministic.1 ℕ (fun l => l.length) true
    (fun st _ => ([], st + 1)) 3 2 (1/2) _ _ rfl rfl

/-! ### computeEigenVector (lines 688-740) and the degenerate split -/

/-- Dot product of two channel vectors (the `dots` accumulation loop). -/
def dotList (v w : List ℝ) : ℝ := (List.zipWith (fun a b => a * b) v w).sum

/-- Elementwise sum of two channel vectors (the final accumulation of t
rows into dst). -/
def vecAdd (v w : List ℝ) : List ℝ := List.zipWith (fun a b => a + b) v w

/-- Scaling of a channel vector (`t_row[c] = dots * X_row[c]`). -/
def scalarMul (c : ℝ) (v : List ℝ) : List ℝ := v.map (fun x => c * x)

/-- One power iteration of computeEigenVector: rows of X under the mask
contribute (dst . X_row) * X_row into t, rows outside the mask leave
their zero row, and dst is reset and accumulates the sum of all rows of
t.  X is the flattened residual matrix, mask the flattened cluster
mask. -/
def powerStep (X : List (List ℝ)) (mask : List Bool) (cols : ℕ)
    (v : List ℝ) : List ℝ :=
  List.foldl
    (fun acc mr =>
      if mr.1 then vecAdd acc (scalarMul (dotList v mr.2) mr.2) else acc)
    (List.replicate cols 0) (List.zip mask X)

/-- The vector held in dst after the num_pca_iterations power
iterations, before normalization. -/
def eigIter (X : List (List ℝ)) (mask : List Bool) (cols : ℕ)
    (v0 : List ℝ) (iters : ℕ) : List ℝ :=
  (powerStep X mask cols)^[iters] v0

/-- Sum of squares of the entries of a vector. -/
def sumSq (v : List ℝ) : ℝ := (v.map (fun x => x * x)).sum

/-- The final normalization `n = norm(dst); divide(dst, n, dst)` with the
L2 norm; the library divide produces 0 where the divisor is 0. -/
noncomputable def normalizeVec (v : List ℝ) : List ℝ :=
  v.map (fun x => divide0 x (Real.sqrt (sumSq v)))

/-- computeEigenVector: power iteration from the init vector, then
normalization. -/
noncomputable def computeEigenVector (X : List (List ℝ))
    (mask : List Bool) (cols : ℕ) (v0 : List ℝ) (iters : ℕ) : List ℝ :=
  normalizeVec (eigIter X mask cols v0 iters)

/-- The projection field `difOreientation = difEtaSrc * eigenVec^T`
computed by gemm: at each pixel the dot product of the residual vector
with the eigenvector. -/
def projectField {ι : Type} (R : ι → List ℝ) (v : List ℝ) : ι → ℝ :=
  fun x => dotList (R x) v

theorem dotList_replicate_zero (xs : List ℝ) :
    ∀ n : ℕ, dotList xs (List.replicate n 0) = 0 := by
  induction xs with
  | nil => intro n; simp [dotList]
  | cons x xs ih =>
    intro n
    cases n with
    | zero => simp [dotList]
    | succ m =>
      simp only [dotList, List.replicate_succ, List.zipWith_cons_cons,
        List.sum_cons, mul_zero, zero_add]
      exact ih m

/-- Claim C8: when the power-iteration result has zero (underflowed)
norm, the normalized eigenvector is the zero vector, every projection of
a residual vector onto it is 0, and the cluster split then leaves the
minus child empty and gives the plus child the whole parent mask. -/
theorem computeEigenVector_underflow {ι : Type} (X : List (List ℝ))
    (mask : List Bool) (cols : ℕ) (v0 : List ℝ) (iters : ℕ)
    (hzero : sumSq (eigIter X mask cols v0 iters) = 0) :
    computeEigenVector X mask cols v0 iters
      = List.replicate (eigIter X mask cols v0 iters).length 0 ∧
    (∀ (R : ι → List ℝ) (x : ι),
      projectField R (computeEigenVector X mask cols v0 iters) x = 0) ∧
    (∀ (parent : ι → Bool) (R : ι → List ℝ) (x : ι),
      (computeClusters parent
        (projectField R (computeEigenVector X mask cols v0 iters))).1 x
          = false ∧
      (computeClusters parent
        (projectField R (computeEigenVector X mask cols v0 iters))).2 x
          = parent x) := by
  have hv : computeEigenVector X mask cols v0 iters
      = List.replicate (eigIter X mask cols v0 iters).length 0 := by
    rw [computeEigenVector, normalizeVec, hzero, Real.sqrt_zero]
    simp [divide0]
  have hproj : ∀ (R : ι → List ℝ) (x : ι),
      projectField R (computeEigenVector X mask cols v0 iters) x = 0 := by
    intro R x
    rw [projectField, hv]
    exact dotList_replicate_zero (R x) _
  refine ⟨hv, hproj, ?_⟩
  intro parent R x
  constructor
  · simp [computeClusters, cmpLT, hproj R x]
  · simp [computeClusters, cmpGE, hproj R x]

theorem computeEigenVector_underflow_witness :
    sumSq (eigIter [[(1:ℝ)]] [true] 1 [0] 0) = 0 ∧
    computeEigenVector [[(1:ℝ)]] [true] 1 [0] 0
      = List.replicate (eigIter [[(1:ℝ)]] [true] 1 [0] 0).length 0 := by
  have hz : sumSq (eigIter [[(1:ℝ)]] [true] 1 [0] 0) = 0 := by
    simp [eigIter, sumSq]
  exact ⟨hz,
    (computeEigenVector_underflow (ι := Fin 1) [[(1:ℝ)]] [true] 1 [0] 0 hz).1⟩

end AMF
